import Mathlib

/-!
Shallow embedding of the `absfuyu.dxt` collection-extension layer
(`ListExt` in `listext.py`, `DictExt` in `dictext.py`) of the
AbsoluteWinter/absfuyu-public repository, together with proofs that settle
the frozen claims about it.

Python runtime values are modelled by the inductive type `PyVal`,
restricted to the value kinds the claims exercise: integers, strings and
lists.  Machine-level details that the claims do not depend on (arbitrary
precision already matches `Int`, text is compared by code point as CPython
does) are modelled directly.  Fallible Python code is modelled with
`Except PyErr`; the error constructors mirror Python's exception classes.
-/

namespace Absfuyu

/-- Python exception kinds raised by the code under study. -/
inductive PyErr where
  | typeError : String → PyErr
  | valueError : String → PyErr
  | indexError : String → PyErr
deriving DecidableEq

/-- `True` exactly for the `TypeError` kind (used by `try/except TypeError`). -/
def PyErr.isTypeError : PyErr → Bool
  | .typeError _ => true
  | _ => false

/-- Python values of the kinds exercised by the claims: `int`, `str`, `list`. -/
inductive PyVal where
  | int : Int → PyVal
  | str : String → PyVal
  | list : List PyVal → PyVal

/-- Python's runtime type tags for `PyVal`. -/
inductive PType where
  | tInt : PType
  | tStr : PType
  | tList : PType
deriving DecidableEq

/-- `type(x)` on a `PyVal`. -/
def PyVal.ptype : PyVal → PType
  | .int _ => .tInt
  | .str _ => .tStr
  | .list _ => .tList

/-- `True` iff the value is a Python `list` (an iterable that is not a string). -/
def PyVal.isList : PyVal → Bool
  | .list _ => true
  | _ => false

mutual
/-- Python `==` on `PyVal` (structural; `int`/`str`/`list` never cross-equal
non-values of their own kind in this universe). -/
def PyVal.beq : PyVal → PyVal → Bool
  | .int a, .int b => a == b
  | .str a, .str b => a == b
  | .list a, .list b => PyVal.beqList a b
  | _, _ => false
/-- Elementwise Python `==` on Python lists. -/
def PyVal.beqList : List PyVal → List PyVal → Bool
  | [], [] => true
  | a :: as, b :: bs => PyVal.beq a b && PyVal.beqList as bs
  | _, _ => false
end

instance : BEq PyVal := ⟨PyVal.beq⟩

mutual
theorem PyVal.beq_iff : ∀ a b : PyVal, PyVal.beq a b = true ↔ a = b
  | .int a, .int b => by simp [PyVal.beq]
  | .int _, .str _ => by simp [PyVal.beq]
  | .int _, .list _ => by simp [PyVal.beq]
  | .str _, .int _ => by simp [PyVal.beq]
  | .str a, .str b => by simp [PyVal.beq]
  | .str _, .list _ => by simp [PyVal.beq]
  | .list _, .int _ => by simp [PyVal.beq]
  | .list _, .str _ => by simp [PyVal.beq]
  | .list as, .list bs => by
      simp only [PyVal.beq, PyVal.list.injEq]
      exact PyVal.beqList_iff as bs
theorem PyVal.beqList_iff : ∀ as bs : List PyVal, PyVal.beqList as bs = true ↔ as = bs
  | [], [] => by simp [PyVal.beqList]
  | [], _ :: _ => by simp [PyVal.beqList]
  | _ :: _, [] => by simp [PyVal.beqList]
  | a :: as, b :: bs => by
      simp only [PyVal.beqList, Bool.and_eq_true, List.cons.injEq]
      exact and_congr (PyVal.beq_iff a b) (PyVal.beqList_iff as bs)
end

instance : LawfulBEq PyVal where
  eq_of_beq h := (PyVal.beq_iff _ _).1 h
  rfl := (PyVal.beq_iff _ _).2 rfl

instance : DecidableEq PyVal := fun a b =>
  decidable_of_iff (PyVal.beq a b = true) (PyVal.beq_iff a b)

mutual
/-- Python `repr()` on `PyVal`.  Integers print in decimal, strings are
wrapped in single quotes (escaping subtleties of CPython's `repr` are not
modelled; no claim depends on them), lists print their elements' reprs in
square brackets. -/
def pyRepr : PyVal → String
  | .int n => toString n
  | .str s => "\x27" ++ s ++ "\x27"
  | .list xs => "[" ++ pyReprList xs ++ "]"
/-- Comma-separated reprs of the elements of a Python list. -/
def pyReprList : List PyVal → String
  | [] => ""
  | [x] => pyRepr x
  | x :: xs => pyRepr x ++ ", " ++ pyReprList xs
end

/-- Python `str()` on `PyVal`: identity on strings, `repr` otherwise. -/
def pyStr : PyVal → String
  | .str s => s
  | v => pyRepr v

/-- Code-point lexicographic `<` on character lists: the comparison CPython
uses for `str < str`. -/
def lexLt : List Char → List Char → Bool
  | [], [] => false
  | [], _ :: _ => true
  | _ :: _, [] => false
  | a :: as, b :: bs =>
      if a.toNat < b.toNat then true
      else if b.toNat < a.toNat then false
      else lexLt as bs

mutual
/-- Python `<` on `PyVal`: defined within a kind (`int < int` numerically,
`str < str` by code point, `list < list` elementwise), raises `TypeError`
across kinds. -/
def pyLt : PyVal → PyVal → Except PyErr Bool
  | .int a, .int b => .ok (decide (a < b))
  | .str a, .str b => .ok (lexLt a.data b.data)
  | .list a, .list b => pyLtList a b
  | _, _ => .error (.typeError "unorderable types")
/-- Python list `<`: skips `==` pairs, decides at the first mismatch, and
treats a strict prefix as smaller. -/
def pyLtList : List PyVal → List PyVal → Except PyErr Bool
  | [], [] => .ok false
  | [], _ :: _ => .ok true
  | _ :: _, [] => .ok false
  | a :: as, b :: bs =>
      if PyVal.beq a b then pyLtList as bs else pyLt a b
end

mutual
theorem pyLt_error_isTypeError :
    ∀ a b e, pyLt a b = .error e → e.isTypeError = true
  | .int _, .int _, _ => by simp [pyLt]
  | .int _, .str _, e => by simp [pyLt]; rintro rfl; rfl
  | .int _, .list _, e => by simp [pyLt]; rintro rfl; rfl
  | .str _, .int _, e => by simp [pyLt]; rintro rfl; rfl
  | .str _, .str _, _ => by simp [pyLt]
  | .str _, .list _, e => by simp [pyLt]; rintro rfl; rfl
  | .list _, .int _, e => by simp [pyLt]; rintro rfl; rfl
  | .list _, .str _, e => by simp [pyLt]; rintro rfl; rfl
  | .list as, .list bs, e => by
      simp only [pyLt]
      exact pyLtList_error_isTypeError as bs e
theorem pyLtList_error_isTypeError :
    ∀ as bs e, pyLtList as bs = .error e → e.isTypeError = true
  | [], [], _ => by simp [pyLtList]
  | [], _ :: _, _ => by simp [pyLtList]
  | _ :: _, [], _ => by simp [pyLtList]
  | a :: as, b :: bs, e => by
      simp only [pyLtList]
      split
      · exact pyLtList_error_isTypeError as bs e
      · exact pyLt_error_isTypeError a b e
end

/-- `pyLt` succeeds across equal kinds other than `list` and always fails
across distinct kinds. -/
theorem pyLt_cross_kind {a b : PyVal} (h : a.ptype ≠ b.ptype) :
    pyLt a b = .error (.typeError "unorderable types") := by
  cases a <;> cases b <;> simp [PyVal.ptype] at h <;> rfl

theorem lexLt_irrefl : ∀ s : List Char, lexLt s s = false
  | [] => rfl
  | a :: as => by simp [lexLt, lexLt_irrefl as]

theorem char_eq_of_toNat_eq {a b : Char} (h : a.toNat = b.toNat) : a = b := by
  refine Char.eq_of_val_eq (UInt32.eq_of_toBitVec_eq (BitVec.toNat_injective h))

theorem lexLt_trans :
    ∀ {s t u : List Char}, lexLt s t = true → lexLt t u = true → lexLt s u = true
  | [], [], _, h₁, _ => by simp [lexLt] at h₁
  | [], _ :: _, [], _, h₂ => by simp [lexLt] at h₂
  | [], _ :: _, _ :: _, _, _ => rfl
  | _ :: _, [], _, h₁, _ => by simp [lexLt] at h₁
  | _ :: _, _ :: _, [], _, h₂ => by simp [lexLt] at h₂
  | a :: as, b :: bs, c :: cs, h₁, h₂ => by
      simp only [lexLt] at h₁ h₂ ⊢
      split_ifs at h₁ h₂ ⊢ <;> first
        | rfl
        | (exfalso; omega)
        | exact lexLt_trans h₁ h₂

theorem lexLt_eq_of_not_lt :
    ∀ {s t : List Char}, lexLt s t = false → lexLt t s = false → s = t
  | [], [], _, _ => rfl
  | [], _ :: _, h₁, _ => by simp [lexLt] at h₁
  | _ :: _, [], _, h₂ => by simp [lexLt] at h₂
  | a :: as, b :: bs, h₁, h₂ => by
      simp only [lexLt] at h₁ h₂
      by_cases hab : a.toNat < b.toNat
      · simp [hab] at h₁
      · by_cases hba : b.toNat < a.toNat
        · simp [hab, hba] at h₂
        · simp [hab, hba] at h₁ h₂
          have hchar : a = b := char_eq_of_toNat_eq (by omega)
          subst hchar
          rw [lexLt_eq_of_not_lt h₁ h₂]

/-- Python tuple `<` on `(rank, text)` sort keys: compares the numeric rank
first, then the text by code point. -/
def pairKeyLt (p q : Nat × List Char) : Bool :=
  decide (p.1 < q.1) || (p.1 == q.1 && lexLt p.2 q.2)

theorem pairKeyLt_trans {p q r : Nat × List Char}
    (h₁ : pairKeyLt p q = true) (h₂ : pairKeyLt q r = true) : pairKeyLt p r = true := by
  simp only [pairKeyLt, Bool.or_eq_true, decide_eq_true_eq, Bool.and_eq_true, beq_iff_eq] at *
  rcases h₁ with h₁ | ⟨h₁e, h₁l⟩ <;> rcases h₂ with h₂ | ⟨h₂e, h₂l⟩
  · exact .inl (Nat.lt_trans h₁ h₂)
  · exact .inl (h₂e ▸ h₁)
  · exact .inl (h₁e ▸ h₂)
  · exact .inr ⟨h₁e.trans h₂e, lexLt_trans h₁l h₂l⟩

theorem pairKeyLt_eq_of_not_lt {p q : Nat × List Char}
    (h₁ : pairKeyLt p q = false) (h₂ : pairKeyLt q p = false) : p = q := by
  simp only [pairKeyLt, Bool.or_eq_false_iff, decide_eq_false_iff_not, Bool.and_eq_false_iff,
    beq_eq_false_iff_ne, ne_eq] at h₁ h₂
  obtain ⟨h₁n, h₁r⟩ := h₁
  obtain ⟨h₂n, h₂r⟩ := h₂
  have hn : p.1 = q.1 := by omega
  rcases h₁r with h | h₁r
  · exact absurd hn h
  rcases h₂r with h | h₂r
  · exact absurd hn.symm h
  exact Prod.ext hn (lexLt_eq_of_not_lt h₁r h₂r)

theorem pairKeyLt_irrefl (p : Nat × List Char) : pairKeyLt p p = false := by
  simp [pairKeyLt, lexLt_irrefl]

/-- The "keep `a` before `b`" test a stable Python sort applies with sort key
`key`: `a` stays before `b` unless `key b < key a`. -/
def keyLe (key : α → Nat × List Char) (a b : α) : Bool :=
  !(pairKeyLt (key b) (key a))

theorem keyLe_trans (key : α → Nat × List Char) :
    ∀ a b c, keyLe key a b = true → keyLe key b c = true → keyLe key a c = true := by
  intro a b c h₁ h₂
  simp only [keyLe, Bool.not_eq_true'] at h₁ h₂ ⊢
  cases h : pairKeyLt (key c) (key a)
  · rfl
  · exfalso
    cases hab : pairKeyLt (key a) (key b)
    · have hkey := pairKeyLt_eq_of_not_lt hab h₁
      rw [← hkey] at h₂
      rw [h] at h₂
      exact Bool.noConfusion h₂
    · have := pairKeyLt_trans h hab
      rw [this] at h₂
      exact Bool.noConfusion h₂

theorem keyLe_total (key : α → Nat × List Char) :
    ∀ a b, keyLe key a b = true ∨ keyLe key b a = true := by
  intro a b
  simp only [keyLe, Bool.not_eq_true']
  cases h₁ : pairKeyLt (key b) (key a)
  · exact .inl rfl
  · cases h₂ : pairKeyLt (key a) (key b)
    · exact .inr rfl
    · exfalso
      have := pairKeyLt_trans h₁ h₂
      rw [pairKeyLt_irrefl] at this
      exact Bool.noConfusion this

end Absfuyu

/-! ### Generic helpers shared by the embedded methods -/

namespace Absfuyu

/-- Append `t` unless already present: one step of building a Python `dict`
key sequence (or `set` content) in insertion order. -/
def insertNew [DecidableEq β] (acc : List β) (t : β) : List β :=
  if t ∈ acc then acc else acc ++ [t]

/-- The distinct elements of `l` in first-encounter order: the key sequence
of a Python `dict` populated by conditional insertion while scanning `l`
left to right. -/
def firstSeen [DecidableEq β] (l : List β) : List β := l.foldl insertNew []

theorem foldl_insertNew_prefix [DecidableEq β] :
    ∀ (l acc : List β), ∃ u, l.foldl insertNew acc = acc ++ u ∧ ∀ t ∈ u, t ∉ acc
  | [], acc => ⟨[], by simp⟩
  | x :: l, acc => by
      by_cases hx : x ∈ acc
      · simpa [List.foldl_cons, insertNew, hx] using foldl_insertNew_prefix l acc
      · obtain ⟨u, hu, hmem⟩ := foldl_insertNew_prefix l (acc ++ [x])
        refine ⟨x :: u, ?_, ?_⟩
        · simp [List.foldl_cons, insertNew, hx, hu]
        · intro t ht
          rcases List.mem_cons.mp ht with rfl | ht
          · exact hx
          · intro hta
            exact hmem t ht (by simp [hta])

theorem mem_foldl_insertNew [DecidableEq β] :
    ∀ (l acc : List β) (t : β), t ∈ l.foldl insertNew acc ↔ t ∈ acc ∨ t ∈ l
  | [], acc, t => by simp
  | x :: l, acc, t => by
      by_cases hx : x ∈ acc
      · rw [List.foldl_cons, insertNew, if_pos hx, mem_foldl_insertNew l acc t]
        constructor
        · rintro (h | h) <;> simp [h]
        · rintro (h | h)
          · exact .inl h
          · rcases List.mem_cons.mp h with rfl | h
            · exact .inl hx
            · exact .inr h
      · rw [List.foldl_cons, insertNew, if_neg hx, mem_foldl_insertNew l (acc ++ [x]) t]
        simp only [List.mem_append, List.mem_singleton, List.mem_cons]
        tauto

theorem mem_firstSeen [DecidableEq β] (l : List β) (t : β) :
    t ∈ firstSeen l ↔ t ∈ l := by
  rw [firstSeen, mem_foldl_insertNew]
  simp

theorem nodup_foldl_insertNew [DecidableEq β] :
    ∀ (l acc : List β), acc.Nodup → (l.foldl insertNew acc).Nodup
  | [], _, h => h
  | x :: l, acc, h => by
      by_cases hx : x ∈ acc
      · rw [List.foldl_cons, insertNew, if_pos hx]
        exact nodup_foldl_insertNew l acc h
      · rw [List.foldl_cons, insertNew, if_neg hx]
        exact nodup_foldl_insertNew l (acc ++ [x]) (by simp [List.nodup_append, h, hx])

theorem nodup_firstSeen [DecidableEq β] (l : List β) : (firstSeen l).Nodup :=
  nodup_foldl_insertNew l [] List.nodup_nil

/-- Relative order in `firstSeen`: an element seen in a prefix in which `b`
has not yet been seen comes strictly before `b`. -/
theorem firstSeen_indexOf_lt [DecidableEq β] {w₁ : List β} (w₂ : List β) {a b : β}
    (ha : a ∈ w₁) (hb : b ∉ w₁) :
    (firstSeen (w₁ ++ w₂)).indexOf a < (firstSeen (w₁ ++ w₂)).indexOf b := by
  obtain ⟨u, hu, hmem⟩ := foldl_insertNew_prefix w₂ (firstSeen w₁)
  have key : firstSeen (w₁ ++ w₂) = firstSeen w₁ ++ u := by
    rw [firstSeen, List.foldl_append]
    exact hu
  rw [key]
  have haf : a ∈ firstSeen w₁ := (mem_firstSeen w₁ a).mpr ha
  have hbf : b ∉ firstSeen w₁ := fun h => hb ((mem_firstSeen w₁ b).mp h)
  rw [List.indexOf_append_of_mem haf, List.indexOf_append_of_not_mem hbf]
  calc (firstSeen w₁).indexOf a < (firstSeen w₁).length := List.indexOf_lt_length.mpr haf
    _ ≤ (firstSeen w₁).length + u.indexOf b := Nat.le_add_right _ _

end Absfuyu

/-! ### Python slicing and the `ListExt` slicing methods -/

namespace Absfuyu

/-- Python slice `l[a:b]` (step 1) with CPython index semantics: negative
indices count from the end of the list, out-of-range indices clamp. -/
def pySlice (l : List α) (a b : Int) : List α :=
  let n : Int := l.length
  let lo := (if a < 0 then max (n + a) 0 else min a n).toNat
  let hi := (if b < 0 then max (n + b) 0 else min b n).toNat
  (l.take hi).drop lo

namespace ListExt

/-- `ListExt.slice_points`.  The Python method first mutates its `points`
argument in place (`points.append(len(self))`) and then slices between
`zip([0] + points[:-1], points)`.  The embedding threads the mutation
explicitly: the second component is the state of the caller-supplied list
after the call. -/
def slice_points (l : List α) (points : List Int) : List (List α) × List Int :=
  let pts := points ++ [(l.length : Int)]
  ((((0 : Int) :: pts.dropLast).zip pts).map (fun p => pySlice l p.1 p.2), pts)

/-- `list(range(cur, stop, step))` written with explicit fuel; `stop` fuel
is always enough when `step ≥ 1`. -/
def rangeStepAux : Nat → Nat → Nat → Nat → List Nat
  | 0, _, _, _ => []
  | fuel + 1, cur, stop, step =>
      if cur < stop then cur :: rangeStepAux fuel (cur + step) stop step else []

/-- `list(range(0, stop, step))` for a positive `step`. -/
def pyRangeTo (stop step : Nat) : List Nat := rangeStepAux stop 0 stop step

/-- `ListExt.split_chunk`: slice points are
`list(range(0, len(self), max(chunk_size, 1)))[1:]`; the local list the
source passes to `slice_points` is discarded after the call, so only the
first component is kept. -/
def split_chunk (l : List α) (chunk_size : Int) : List (List α) :=
  let pts := (pyRangeTo l.length (max chunk_size 1).toNat).drop 1
  (slice_points l (pts.map Int.ofNat)).1

end ListExt

/-- Consecutive slices of `l` between `a` and the successive cut points. -/
def intSlices (l : List α) : Int → List Int → List (List α)
  | _, [] => []
  | a, b :: rest => pySlice l a b :: intSlices l b rest

/-- The same slice sequence with `Nat` cut points taken verbatim. -/
def natSlices (l : List α) : Nat → List Nat → List (List α)
  | _, [] => []
  | a, b :: rest => (l.take b).drop a :: natSlices l b rest

theorem zip_slices_eq_intSlices (l : List α) :
    ∀ (pts : List Int) (a : Int),
      ((a :: pts.dropLast).zip pts).map (fun p => pySlice l p.1 p.2) = intSlices l a pts
  | [], _ => rfl
  | b :: rest, a => by
      cases rest with
      | nil => rfl
      | cons c rest2 =>
          rw [List.dropLast_cons_of_ne_nil (by simp), List.zip_cons_cons, List.map_cons]
          rw [intSlices]
          exact congrArg _ (zip_slices_eq_intSlices l (c :: rest2) b)

theorem intSlices_append_last (l : List α) :
    ∀ (cs : List Int) (a b : Int),
      intSlices l a (cs ++ [b]) = intSlices l a cs ++ [pySlice l (cs.getLastD a) b]
  | [], a, b => by simp [intSlices]
  | c :: cs, a, b => by
      rw [List.cons_append, intSlices, intSlices_append_last l cs c b, intSlices,
        List.getLastD_cons, List.cons_append]

theorem pySlice_of_le (l : List α) {a b : Nat} (ha : a ≤ l.length) (hb : b ≤ l.length) :
    pySlice l (a : Int) (b : Int) = (l.take b).drop a := by
  have h1 : ¬((a : Int) < 0) := by omega
  have h2 : ¬((b : Int) < 0) := by omega
  have h3 : (min (a : Int) (l.length : Int)).toNat = a := by omega
  have h4 : (min (b : Int) (l.length : Int)).toNat = b := by omega
  simp only [pySlice, if_neg h1, if_neg h2, h3, h4]

theorem pySlice_self (l : List α) :
    pySlice l (l.length : Int) (l.length : Int) = [] := by
  rw [pySlice_of_le l le_rfl le_rfl]
  exact List.drop_eq_nil_of_le (by simp)

theorem intSlices_eq_natSlices (l : List α) :
    ∀ (cs : List Nat) (a : Nat), a ≤ l.length → (∀ c ∈ cs, c ≤ l.length) →
      intSlices l (a : Int) (cs.map Int.ofNat) = natSlices l a cs
  | [], _, _, _ => rfl
  | c :: cs, a, ha, hcs => by
      simp only [Int.ofNat_eq_natCast, List.map_cons]
      rw [intSlices, natSlices,
        pySlice_of_le l ha (hcs c (by simp)),
        intSlices_eq_natSlices l cs c (hcs c (by simp)) (fun d hd => hcs d (by simp [hd]))]

theorem drop_take_append (xs : List α) {a b : Nat} (hab : a ≤ b) :
    (xs.take b).drop a ++ xs.drop b = xs.drop a := by
  by_cases hlen : a ≤ xs.length
  · conv_rhs => rw [← List.take_append_drop b xs]
    rw [List.drop_append_eq_append_drop]
    have h : a - (xs.take b).length = 0 := by
      rw [List.length_take]
      omega
    rw [h, List.drop_zero]
  · rw [List.drop_eq_nil_of_le (le_of_lt (by rw [List.length_take]; omega)),
      List.drop_eq_nil_of_le (by omega), List.drop_eq_nil_of_le (by omega)]
    rfl

theorem take_drop_glue (l : List α) {a b c : Nat} (hab : a ≤ b) (hbc : b ≤ c) :
    (l.take b).drop a ++ (l.take c).drop b = (l.take c).drop a := by
  have h := drop_take_append (l.take c) hab
  rw [List.take_take, min_eq_left hbc] at h
  exact h

theorem chain_le_getLastD :
    ∀ {cs : List Nat} {a : Nat}, List.Chain (· ≤ ·) a cs → a ≤ cs.getLastD a
  | [], _, _ => le_rfl
  | b :: rest, a, h => by
      obtain ⟨hab, hrest⟩ := List.chain_cons.mp h
      rw [List.getLastD_cons]
      exact le_trans hab (chain_le_getLastD hrest)

theorem flatten_natSlices (l : List α) :
    ∀ (cs : List Nat) (a : Nat), List.Chain (· ≤ ·) a cs →
      (natSlices l a cs).flatten = (l.take (cs.getLastD a)).drop a
  | [], a, _ => by
      rw [natSlices]
      exact (List.drop_eq_nil_of_le (by simp [List.length_take])).symm
  | b :: rest, a, h => by
      obtain ⟨hab, hrest⟩ := List.chain_cons.mp h
      rw [natSlices, List.flatten_cons, flatten_natSlices l rest b hrest,
        List.getLastD_cons, take_drop_glue l hab (chain_le_getLastD hrest)]

theorem natSlices_length (l : List α) :
    ∀ (cs : List Nat) (a : Nat), (natSlices l a cs).length = cs.length
  | [], _ => rfl
  | _ :: rest, _ => by
      rw [natSlices, List.length_cons, natSlices_length l rest _, List.length_cons]

theorem chain_rangeStepAux {n k : Nat} :
    ∀ (fuel cur : Nat), cur ≤ n →
      List.Chain (· ≤ ·) cur (ListExt.rangeStepAux fuel (cur + k) n k ++ [n])
  | 0, cur, h => by
      rw [ListExt.rangeStepAux]
      exact List.chain_cons.mpr ⟨h, List.Chain.nil⟩
  | fuel + 1, cur, h => by
      rw [ListExt.rangeStepAux]
      by_cases hlt : cur + k < n
      · rw [if_pos hlt, List.cons_append]
        exact List.chain_cons.mpr
          ⟨Nat.le_add_right _ _, chain_rangeStepAux fuel (cur + k) (le_of_lt hlt)⟩
      · rw [if_neg hlt, List.nil_append]
        exact List.chain_cons.mpr ⟨h, List.Chain.nil⟩

theorem rangeStepAux_le {n k : Nat} :
    ∀ (fuel cur : Nat), ∀ c ∈ ListExt.rangeStepAux fuel cur n k, c ≤ n
  | 0, _, _, hc => by rw [ListExt.rangeStepAux] at hc; exact absurd hc (List.not_mem_nil _)
  | fuel + 1, cur, c, hc => by
      rw [ListExt.rangeStepAux] at hc
      by_cases hlt : cur < n
      · rw [if_pos hlt] at hc
        rcases List.mem_cons.mp hc with rfl | hc
        · exact le_of_lt hlt
        · exact rangeStepAux_le fuel (cur + k) c hc
      · rw [if_neg hlt] at hc
        exact absurd hc (List.not_mem_nil _)

end Absfuyu

namespace Absfuyu

theorem slice_points_fst (l : List α) (points : List Int) :
    (ListExt.slice_points l points).1 = intSlices l 0 (points ++ [(l.length : Int)]) :=
  zip_slices_eq_intSlices l (points ++ [(l.length : Int)]) 0

theorem slice_points_snd (l : List α) (points : List Int) :
    (ListExt.slice_points l points).2 = points ++ [(l.length : Int)] := rfl

theorem pyRangeTo_drop_one (n k : Nat) :
    (ListExt.pyRangeTo n k).drop 1 = ListExt.rangeStepAux (n - 1) (0 + k) n k := by
  cases n with
  | zero => rfl
  | succ m =>
      rw [ListExt.pyRangeTo, ListExt.rangeStepAux, if_pos (Nat.succ_pos m)]
      simp

theorem split_chunk_eq_natSlices (l : List α) (k : Int) :
    ListExt.split_chunk l k =
      natSlices l 0 ((ListExt.pyRangeTo l.length (max k 1).toNat).drop 1 ++ [l.length]) := by
  have h1 : ListExt.split_chunk l k =
      intSlices l 0
        (((ListExt.pyRangeTo l.length (max k 1).toNat).drop 1).map Int.ofNat
          ++ [(l.length : Int)]) :=
    slice_points_fst l _
  rw [h1]
  have h2 : ((ListExt.pyRangeTo l.length (max k 1).toNat).drop 1).map Int.ofNat
      ++ [(l.length : Int)]
      = (((ListExt.pyRangeTo l.length (max k 1).toNat).drop 1) ++ [l.length]).map
          Int.ofNat := by
    simp [Int.ofNat_eq_natCast]
  rw [h2]
  have h3 := intSlices_eq_natSlices l
    (((ListExt.pyRangeTo l.length (max k 1).toNat).drop 1) ++ [l.length]) 0
    (Nat.zero_le _) ?_
  · exact_mod_cast h3
  · intro c hc
    rcases List.mem_append.mp hc with h | h
    · rw [pyRangeTo_drop_one] at h
      exact rangeStepAux_le _ _ c h
    · rw [List.mem_singleton] at h
      omega

theorem chain_cuts (n k : Nat) :
    List.Chain (· ≤ ·) 0 ((ListExt.pyRangeTo n k).drop 1 ++ [n]) := by
  rw [pyRangeTo_drop_one]
  exact chain_rangeStepAux (n - 1) 0 (Nat.zero_le _)

theorem split_chunk_flatten (l : List α) (k : Int) :
    (ListExt.split_chunk l k).flatten = l := by
  rw [split_chunk_eq_natSlices,
    flatten_natSlices l _ 0 (chain_cuts l.length (max k 1).toNat),
    List.getLastD_concat, List.take_length, List.drop_zero]

theorem natSlices_cuts_sizes (l : List α) {k : Nat} :
    ∀ (fuel cur : Nat),
      ∀ c ∈ (natSlices l cur
        (ListExt.rangeStepAux fuel (cur + k) l.length k ++ [l.length])).dropLast,
        c.length = k
  | 0, cur, c, hcmem => by
      rw [ListExt.rangeStepAux, List.nil_append, natSlices, natSlices] at hcmem
      simp at hcmem
  | fuel + 1, cur, c, hcmem => by
      rw [ListExt.rangeStepAux] at hcmem
      by_cases hlt : cur + k < l.length
      · rw [if_pos hlt, List.cons_append, natSlices] at hcmem
        have hne : natSlices l (cur + k)
            (ListExt.rangeStepAux fuel (cur + k + k) l.length k ++ [l.length]) ≠ [] := by
          intro h
          have hlen := natSlices_length l
            (ListExt.rangeStepAux fuel (cur + k + k) l.length k ++ [l.length]) (cur + k)
          rw [h] at hlen
          simp at hlen
        rw [List.dropLast_cons_of_ne_nil hne] at hcmem
        rcases List.mem_cons.mp hcmem with rfl | hcmem
        · rw [List.length_drop, List.length_take]
          omega
        · exact natSlices_cuts_sizes l fuel (cur + k) c hcmem
      · rw [if_neg hlt, List.nil_append, natSlices, natSlices] at hcmem
        simp at hcmem

theorem split_chunk_sizes (l : List α) (k : Int) :
    ∀ c ∈ (ListExt.split_chunk l k).dropLast, c.length = (max k 1).toNat := by
  rw [split_chunk_eq_natSlices, pyRangeTo_drop_one]
  exact natSlices_cuts_sizes l (l.length - 1) 0

end Absfuyu

/-! ### `ListExt.sorts`: stable heterogeneous sort -/

namespace Absfuyu

/-- The per-type weight table Python builds in `ListExt.sorts`: distinct
runtime types in first-encounter order (the weight of a type is its index
in this list). -/
def typeWeights [DecidableEq τ] (pt : α → τ) (l : List α) : List τ :=
  firstSeen (l.map pt)

/-- The sort key `lambda x: (type_weights[type(x)], str(x))`. -/
def sortKey [DecidableEq τ] (pt : α → τ) (ps : α → String) (tw : List τ) (x : α) :
    Nat × List Char :=
  (tw.indexOf (pt x), (ps x).data)

/-- "Keep `a` before `b`" as a relation: Python's stable sort keeps `a`
before `b` unless `key b < key a`. -/
def keyRel (key : α → Nat × List Char) : α → α → Prop :=
  fun a b => keyLe key a b = true

instance keyRelDecidable (key : α → Nat × List Char) : DecidableRel (keyRel key) :=
  fun a b => inferInstanceAs (Decidable (keyLe key a b = true))

instance keyRelTotal (key : α → Nat × List Char) : IsTotal α (keyRel key) :=
  ⟨keyLe_total key⟩

instance keyRelTrans (key : α → Nat × List Char) : IsTrans α (keyRel key) :=
  ⟨fun a b c => keyLe_trans key a b c⟩

/-- Generic form of `ListExt.sorts` (also reused for the tuple-list fallback
sort inside `freq`): weight runtime types by first encounter, then
stable-sort by `(type_weight, str(x))`.  Python's `sorted` is *the* stable
sort for its key function; stable insertion sort realizes it. -/
def sortsBy [DecidableEq τ] (pt : α → τ) (ps : α → String) (rev : Bool) (l : List α) :
    List α :=
  if rev then
    l.insertionSort fun a b =>
      (!(pairKeyLt (sortKey pt ps (typeWeights pt l) a)
          (sortKey pt ps (typeWeights pt l) b))) = true
  else l.insertionSort (keyRel (sortKey pt ps (typeWeights pt l)))

namespace ListExt

/-- `ListExt.sorts` on Python values. -/
def sorts (rev : Bool) (l : List PyVal) : List PyVal :=
  sortsBy PyVal.ptype pyStr rev l

end ListExt

theorem sortsBy_false_perm [DecidableEq τ] (pt : α → τ) (ps : α → String) (l : List α) :
    (sortsBy pt ps false l).Perm l :=
  List.perm_insertionSort _ l

theorem sortsBy_false_sorted [DecidableEq τ] (pt : α → τ) (ps : α → String) (l : List α) :
    List.Pairwise (keyRel (sortKey pt ps (typeWeights pt l))) (sortsBy pt ps false l) :=
  List.sorted_insertionSort _ l

theorem pairKeyLt_eq_false_iff {p q : Nat × List Char} :
    pairKeyLt p q = false ↔ ¬ p.1 < q.1 ∧ (p.1 = q.1 → lexLt p.2 q.2 = false) := by
  simp only [pairKeyLt, Bool.or_eq_false_iff, decide_eq_false_iff_not,
    Bool.and_eq_false_iff, beq_eq_false_iff_ne, ne_eq]
  constructor
  · rintro ⟨h1, h2⟩
    exact ⟨h1, fun he => by tauto⟩
  · rintro ⟨h1, h2⟩
    refine ⟨h1, ?_⟩
    by_cases he : p.1 = q.1
    · exact .inr (h2 he)
    · exact .inl he

/-- After `sorts`, recomputing the type weights on the output and comparing
with the output's own key still finds the list sorted: the heart of the
idempotence claim. -/
theorem sortsBy_pairwise_rekey [DecidableEq τ] (pt : α → τ) (ps : α → String)
    (x : List α) :
    List.Pairwise (keyRel (sortKey pt ps (typeWeights pt (sortsBy pt ps false x))))
      (sortsBy pt ps false x) := by
  have hperm := sortsBy_false_perm pt ps x
  have hsorted := sortsBy_false_sorted pt ps x
  generalize hy : sortsBy pt ps false x = y at *
  rw [List.pairwise_iff_get] at hsorted ⊢
  intro i j hij
  have hx := hsorted i j hij
  have hmemtw : ∀ k : Fin y.length, pt (y.get k) ∈ typeWeights pt x := by
    intro k
    rw [typeWeights, mem_firstSeen]
    exact (List.Perm.mem_iff (hperm.map pt)).mp (List.mem_map_of_mem pt (List.get_mem y k.1 k.2))
  have hx2 : pairKeyLt (sortKey pt ps (typeWeights pt x) (y.get j))
      (sortKey pt ps (typeWeights pt x) (y.get i)) = false := by
    simpa [keyRel, keyLe, Bool.not_eq_true'] using hx
  rw [pairKeyLt_eq_false_iff] at hx2
  obtain ⟨hrle, hlex⟩ := hx2
  show keyLe _ _ _ = true
  rw [keyLe, Bool.not_eq_true', pairKeyLt_eq_false_iff]
  by_cases hcase : pt (y.get i) = pt (y.get j)
  · constructor
    · rw [sortKey, sortKey]
      simp only [hcase, lt_self_iff_false, not_false_eq_true]
    · intro _
      apply hlex
      rw [sortKey, sortKey]
      simp only [hcase]
  · have hrne : (typeWeights pt x).indexOf (pt (y.get j))
        ≠ (typeWeights pt x).indexOf (pt (y.get i)) := by
      intro h
      exact hcase (((List.indexOf_inj (hmemtw j) (hmemtw i)).mp h).symm)
    have hstrict : (typeWeights pt x).indexOf (pt (y.get i))
        < (typeWeights pt x).indexOf (pt (y.get j)) := by
      simp only [sortKey] at hrle
      omega
    have hsplit : y.map pt = (y.take (i.1 + 1)).map pt ++ (y.drop (i.1 + 1)).map pt := by
      rw [← List.map_append, List.take_append_drop]
    have hmem1 : pt (y.get i) ∈ (y.take (i.1 + 1)).map pt := by
      apply List.mem_map_of_mem
      rw [List.mem_take_iff_getElem]
      exact ⟨i.1, by omega, by simp [List.get_eq_getElem]⟩
    have hmem2 : pt (y.get j) ∉ (y.take (i.1 + 1)).map pt := by
      intro hm
      obtain ⟨v, hv, hpv⟩ := List.mem_map.mp hm
      obtain ⟨k, hk, hkv⟩ := List.mem_take_iff_getElem.mp hv
      by_cases hki : k = i.1
      · apply hcase
        subst hki
        rw [← hpv, ← hkv]
        simp [List.get_eq_getElem]
      · have hklt : k < i.1 := by omega
        have hkfin : k < y.length := by omega
        have hks := hsorted ⟨k, hkfin⟩ i hklt
        have hks2 : pairKeyLt (sortKey pt ps (typeWeights pt x) (y.get i))
            (sortKey pt ps (typeWeights pt x) (y.get ⟨k, hkfin⟩)) = false := by
          simpa [keyRel, keyLe, Bool.not_eq_true'] using hks
        rw [pairKeyLt_eq_false_iff] at hks2
        have hkj : pt (y.get ⟨k, hkfin⟩) = pt (y.get j) := by
          rw [← hpv, ← hkv]
          simp [List.get_eq_getElem]
        simp only [sortKey] at hks2
        rw [hkj] at hks2
        omega
    have hlt := firstSeen_indexOf_lt ((y.drop (i.1 + 1)).map pt) hmem1 hmem2
    rw [← hsplit] at hlt
    constructor
    · rw [sortKey, sortKey, typeWeights]
      omega
    · intro heq
      rw [sortKey, sortKey, typeWeights] at heq
      omega

/-- `sortsBy` (with `reverse=False`) is idempotent. -/
theorem sortsBy_false_idempotent [DecidableEq τ] (pt : α → τ) (ps : α → String)
    (x : List α) :
    sortsBy pt ps false (sortsBy pt ps false x) = sortsBy pt ps false x := by
  have h := sortsBy_pairwise_rekey pt ps x
  exact List.Sorted.insertionSort_eq h

end Absfuyu

/-! ### `ListExt.flatten` -/

namespace Absfuyu

mutual
/-- Structural weight of a Python value (counts each value node and list
nesting level), used to show the recursive flatten loop terminates. -/
def pvWeight : PyVal → Nat
  | .int _ => 1
  | .str _ => 1
  | .list xs => 1 + pvlWeight xs
/-- Total weight of a list of Python values. -/
def pvlWeight : List PyVal → Nat
  | [] => 0
  | x :: xs => pvWeight x + pvlWeight xs
end

theorem pvlWeight_append :
    ∀ a b : List PyVal, pvlWeight (a ++ b) = pvlWeight a + pvlWeight b
  | [], b => by simp [pvlWeight]
  | x :: a, b => by
      rw [List.cons_append, pvlWeight, pvlWeight, pvlWeight_append a b]
      omega

/-- `instance_checking` from the source: strings stay atomic, any other
iterable — in this universe, a list — is passed through for splicing,
anything else becomes a singleton. -/
def instance_checking : PyVal → List PyVal
  | .list xs => xs
  | x => [x]

/-- One flattening pass (`flatten()` with the default `recursive=False`):
`chain(*(instance_checking(x) for x in self))`. -/
def flattenOnce (l : List PyVal) : List PyVal :=
  (l.map instance_checking).flatten

theorem flattenOnce_cons (x : PyVal) (xs : List PyVal) :
    flattenOnce (x :: xs) = instance_checking x ++ flattenOnce xs := by
  rw [flattenOnce, List.map_cons, List.flatten_cons, flattenOnce]

/-- `any(flattened.apply(_condition))`: some element is a non-string iterable. -/
def hasIterable (l : List PyVal) : Bool :=
  l.any PyVal.isList

theorem pvlWeight_flattenOnce_le :
    ∀ l : List PyVal, pvlWeight (flattenOnce l) ≤ pvlWeight l
  | [] => le_rfl
  | x :: xs => by
      have ih := pvlWeight_flattenOnce_le xs
      rw [flattenOnce_cons, pvlWeight_append, pvlWeight]
      cases x <;> simp [instance_checking, pvWeight, pvlWeight] <;> omega

theorem pvlWeight_flattenOnce_lt :
    ∀ l : List PyVal, hasIterable l = true → pvlWeight (flattenOnce l) < pvlWeight l
  | [], h => by simp [hasIterable] at h
  | x :: xs, h => by
      rw [flattenOnce_cons, pvlWeight_append, pvlWeight]
      cases x with
      | list ys =>
          have := pvlWeight_flattenOnce_le xs
          simp only [instance_checking, pvWeight]
          omega
      | int n =>
          have hx : hasIterable xs = true := by
            simpa [hasIterable, PyVal.isList] using h
          have := pvlWeight_flattenOnce_lt xs hx
          simp only [instance_checking, pvWeight, pvlWeight]
          omega
      | str s =>
          have hx : hasIterable xs = true := by
            simpa [hasIterable, PyVal.isList] using h
          have := pvlWeight_flattenOnce_lt xs hx
          simp only [instance_checking, pvWeight, pvlWeight]
          omega

/-- The `while any(...)` loop in `flatten(recursive=True)`: keeps flattening
one level while some element is a non-string iterable. -/
def flattenRecAux (l : List PyVal) : List PyVal :=
  if hit : hasIterable l = true then flattenRecAux (flattenOnce l) else l
termination_by pvlWeight l
decreasing_by exact pvlWeight_flattenOnce_lt l hit

namespace ListExt

/-- `ListExt.flatten`: one flattening pass, then (when `recursive=True`)
repeat while any element is a non-string iterable. -/
def flatten (l : List PyVal) (recursive : Bool) : List PyVal :=
  let flattened := flattenOnce l
  if recursive then flattenRecAux flattened else flattened

end ListExt

theorem flattenRecAux_no_iterable (l : List PyVal) :
    hasIterable (flattenRecAux l) = false := by
  by_cases h : hasIterable l = true
  · rw [flattenRecAux, dif_pos h]
    exact flattenRecAux_no_iterable (flattenOnce l)
  · rw [flattenRecAux, dif_neg h]
    simpa using h
termination_by pvlWeight l
decreasing_by exact pvlWeight_flattenOnce_lt l h

theorem flattenOnce_of_no_iterable :
    ∀ {l : List PyVal}, hasIterable l = false → flattenOnce l = l
  | [], _ => rfl
  | x :: xs, h => by
      have hx : PyVal.isList x = false ∧ hasIterable xs = false := by
        constructor <;> simp_all [hasIterable]
      rw [flattenOnce_cons, flattenOnce_of_no_iterable hx.2]
      cases x with
      | list ys => simp [PyVal.isList] at hx
      | int n => rfl
      | str s => rfl

theorem flattenRecAux_of_no_iterable {l : List PyVal} (h : hasIterable l = false) :
    flattenRecAux l = l := by
  rw [flattenRecAux, dif_neg (by simp [h])]

end Absfuyu

/-! ### Python dicts as association lists in insertion order -/

namespace Absfuyu

/-- Write through key `k` of a Python dict modelled as an association list
in insertion order: the first matching key is updated in place, a fresh key
is appended.  `f` receives the previously stored value, if any. -/
def dictUpd [BEq κ] (f : Option β → β) (k : κ) : List (κ × β) → List (κ × β)
  | [] => [(k, f none)]
  | (k2, v) :: rest =>
      if k2 == k then (k2, f (some v)) :: rest else (k2, v) :: dictUpd f k rest

theorem dictUpd_lookup_self [BEq κ] [LawfulBEq κ] (f : Option β → β) (k : κ) :
    ∀ d : List (κ × β), (dictUpd f k d).lookup k = some (f (d.lookup k))
  | [] => by simp [dictUpd, List.lookup]
  | (k2, v) :: rest => by
      by_cases h : k2 = k
      · subst h
        simp [dictUpd, List.lookup]
      · have hne : (k2 == k) = false := by simp [h]
        have hne2 : (k == k2) = false := by simp [Ne.symm h]
        rw [dictUpd, if_neg (by simp [h]), List.lookup, hne2, List.lookup, hne2]
        exact dictUpd_lookup_self f k rest

theorem dictUpd_lookup_other [BEq κ] [LawfulBEq κ] (f : Option β → β) {k k2 : κ}
    (hne : k2 ≠ k) :
    ∀ d : List (κ × β), (dictUpd f k d).lookup k2 = d.lookup k2
  | [] => by
      have h2 : (k2 == k) = false := by simp [hne]
      simp [dictUpd, List.lookup, h2]
  | (k3, v) :: rest => by
      by_cases h : k3 = k
      · subst h
        have h2 : (k2 == k3) = false := by simp [hne]
        simp [dictUpd, List.lookup, h2]
      · rw [dictUpd, if_neg (by simp [h]), List.lookup, List.lookup]
        cases hc : k2 == k3
        · exact dictUpd_lookup_other f hne rest
        · rfl

theorem dictUpd_keys [BEq κ] [LawfulBEq κ] (f : Option β → β) (k : κ) :
    ∀ d : List (κ × β),
      (dictUpd f k d).map Prod.fst = if k ∈ d.map Prod.fst then d.map Prod.fst
        else d.map Prod.fst ++ [k]
  | [] => by simp [dictUpd]
  | (k2, v) :: rest => by
      by_cases h : k2 = k
      · subst h
        simp [dictUpd]
      · rw [dictUpd, if_neg (by simp [h]), List.map_cons, dictUpd_keys f k rest,
          List.map_cons]
        by_cases hmem : k ∈ rest.map Prod.fst
        · rw [if_pos hmem, if_pos (by simp [hmem])]
        · rw [if_neg hmem, if_neg (by simp [hmem, Ne.symm h]), List.cons_append]

theorem dictUpd_nodup [BEq κ] [LawfulBEq κ] (f : Option β → β) (k : κ)
    (d : List (κ × β)) (hnd : (d.map Prod.fst).Nodup) :
    ((dictUpd f k d).map Prod.fst).Nodup := by
  rw [dictUpd_keys]
  by_cases hmem : k ∈ d.map Prod.fst
  · rwa [if_pos hmem]
  · rw [if_neg hmem]
    simp [List.nodup_append, hnd, hmem]

/-- `dict(pairs)`: left-to-right insertion with overwrite on duplicates. -/
def dictOfPairs [BEq κ] (ps : List (κ × β)) : List (κ × β) :=
  ps.foldl (fun acc kv => dictUpd (fun _ => kv.2) kv.1 acc) []

theorem dictUpd_append_fresh [BEq κ] [LawfulBEq κ] (f : Option β → β) {k : κ} :
    ∀ {d : List (κ × β)}, k ∉ d.map Prod.fst → dictUpd f k d = d ++ [(k, f none)]
  | [], _ => rfl
  | (k2, v) :: rest, h => by
      have h1 : k2 ≠ k := by
        intro he
        exact (by simp [he] at h)
      rw [dictUpd, if_neg (by simp [h1]), List.cons_append,
        dictUpd_append_fresh f (by simp_all)]

theorem dictOfPairs_nodupkeys [BEq κ] [LawfulBEq κ] :
    ∀ {ps acc : List (κ × β)}, (ps.map Prod.fst).Nodup →
      (∀ k ∈ ps.map Prod.fst, k ∉ acc.map Prod.fst) →
      ps.foldl (fun acc kv => dictUpd (fun _ => kv.2) kv.1 acc) acc = acc ++ ps
  | [], acc, _, _ => by simp
  | (k, v) :: ps, acc, hnd, hdisj => by
      rw [List.foldl_cons]
      have hk : k ∉ acc.map Prod.fst := hdisj k (by simp)
      rw [dictUpd_append_fresh (fun _ => v) hk]
      rw [dictOfPairs_nodupkeys (by simpa using hnd.of_cons) ?_]
      · simp
      · intro k2 hk2
        simp only [List.map_append, List.mem_append]
        rintro (h | h)
        · exact hdisj k2 (by simp [hk2]) h
        · simp only [List.map_cons, List.map_nil, List.mem_singleton] at h
          subst h
          rw [List.map_cons, List.nodup_cons] at hnd
          exact hnd.1 hk2

/-- `dict(pairs)` over distinct keys is the association list itself. -/
theorem dictOfPairs_of_nodup [BEq κ] [LawfulBEq κ] {ps : List (κ × β)}
    (hnd : (ps.map Prod.fst).Nodup) : dictOfPairs ps = ps := by
  rw [dictOfPairs, dictOfPairs_nodupkeys hnd (by simp)]
  rfl

theorem lookup_eq_some_iff_mem [BEq κ] [LawfulBEq κ] :
    ∀ {d : List (κ × β)}, (d.map Prod.fst).Nodup → ∀ {k : κ} {v : β},
      (d.lookup k = some v ↔ (k, v) ∈ d)
  | [], _, k, v => by simp [List.lookup]
  | (k2, v2) :: rest, hnd, k, v => by
      rw [List.map_cons, List.nodup_cons] at hnd
      rw [List.lookup, List.mem_cons]
      cases hc : k == k2
      · rw [lookup_eq_some_iff_mem hnd.2]
        have hne : k ≠ k2 := by simpa using hc
        simp [Prod.ext_iff, fun h : k = k2 => hne h]
      · have he : k = k2 := by simpa using hc
        subst he
        constructor
        · rintro h
          exact .inl (by simpa using h.symm)
        · rintro (h | h)
          · simp [Prod.ext_iff] at h
            simp [h]
          · exfalso
            exact hnd.1 (List.mem_map.mpr ⟨(k, v), h, rfl⟩)

theorem lookup_eq_none_iff [BEq κ] [LawfulBEq κ] :
    ∀ {d : List (κ × β)} {k : κ}, (d.lookup k = none ↔ k ∉ d.map Prod.fst)
  | [], k => by simp [List.lookup]
  | (k2, v2) :: rest, k => by
      rw [List.lookup, List.map_cons, List.mem_cons]
      cases hc : k == k2
      · rw [lookup_eq_none_iff]
        have hne : k ≠ k2 := by simpa using hc
        simp [hne]
      · have he : k = k2 := by simpa using hc
        simp [he]

theorem lookup_of_perm [BEq κ] [LawfulBEq κ] {d₁ d₂ : List (κ × β)}
    (hnd : (d₁.map Prod.fst).Nodup) (hp : d₁.Perm d₂) (k : κ) :
    d₁.lookup k = d₂.lookup k := by
  have hnd₂ : (d₂.map Prod.fst).Nodup := ((hp.map Prod.fst).nodup_iff).mp hnd
  cases h : d₁.lookup k with
  | none =>
      rw [lookup_eq_none_iff] at h
      rw [eq_comm, lookup_eq_none_iff]
      intro hmem
      exact h ((hp.map Prod.fst).mem_iff.mpr hmem)
  | some v =>
      rw [lookup_eq_some_iff_mem hnd] at h
      rw [eq_comm, lookup_eq_some_iff_mem hnd₂]
      exact hp.mem_iff.mp h

end Absfuyu

/-! ### Python `max`/`min` and `DictExt` -/

namespace Absfuyu

/-- The fold inside Python `max`: keep the current maximum, replace it when
a later element compares strictly greater (`x > cur` evaluates `cur < x`
for these value kinds). -/
def pyMaxFold : PyVal → List PyVal → Except PyErr PyVal
  | cur, [] => .ok cur
  | cur, x :: xs => do
      if ← pyLt cur x then pyMaxFold x xs else pyMaxFold cur xs

/-- Python `max(list)`: `ValueError` on an empty sequence. -/
def pyMax : List PyVal → Except PyErr PyVal
  | [] => .error (.valueError "max() arg is an empty sequence")
  | x :: xs => pyMaxFold x xs

/-- The fold inside Python `min` (`x < cur`). -/
def pyMinFold : PyVal → List PyVal → Except PyErr PyVal
  | cur, [] => .ok cur
  | cur, x :: xs => do
      if ← pyLt x cur then pyMinFold x xs else pyMinFold cur xs

/-- Python `min(list)`: `ValueError` on an empty sequence. -/
def pyMin : List PyVal → Except PyErr PyVal
  | [] => .error (.valueError "min() arg is an empty sequence")
  | x :: xs => pyMinFold x xs

/-- Result record of `DictExt.analyze()`. -/
structure DictAnalyzeResult where
  max_value : PyVal
  min_value : PyVal
  max_list : List (String × PyVal)
  min_list : List (String × PyVal)
deriving DecidableEq

/-- A Python dict in insertion order.  Dict keys must be hashable; every
claim exercises string keys, so the key universe is `String`. -/
abbrev PyDict := List (String × PyVal)

namespace DictExt

/-- `DictExt.analyze`: `max`/`min` over the values inside a
`try/except TypeError` that re-raises as `ValueError`; the tie lists simply
collect the items whose value equals the extremum, in insertion order. -/
def analyze (d : PyDict) : Except PyErr DictAnalyzeResult :=
  match pyMax (d.map Prod.snd) with
  | .error (.typeError _) => .error (.valueError "Value must be int or float")
  | .error e => .error e
  | .ok maxv =>
      match pyMin (d.map Prod.snd) with
      | .error (.typeError _) => .error (.valueError "Value must be int or float")
      | .error e => .error e
      | .ok minv =>
          .ok ⟨maxv, minv,
            d.filter fun kv => PyVal.beq kv.2 maxv,
            d.filter fun kv => PyVal.beq kv.2 minv⟩

end DictExt

/-- `operator.add` on Python values: numbers add, strings and lists
concatenate, any cross-kind combination raises `TypeError`. -/
def pyAdd : PyVal → PyVal → Except PyErr PyVal
  | .int a, .int b => .ok (.int (a + b))
  | .str a, .str b => .ok (.str (a ++ b))
  | .list a, .list b => .ok (.list (a ++ b))
  | _, _ => .error (.typeError "unsupported operand types for +")

theorem pyAdd_error_isTypeError : ∀ x y e, pyAdd x y = .error e → e.isTypeError = true := by
  intro x y e h
  cases x <;> cases y <;> simp [pyAdd] at h <;> subst h <;> rfl

/-- `dict.get(k, default)`. -/
def dictGet (d : PyDict) (k : String) (default : PyVal) : PyVal :=
  (d.lookup k).getD default

namespace DictExt

/-- The per-key value `aggregate` stores: the operator applied to the two
`get` results, or, when that raises `TypeError`, the two-element list of
the values from both dicts. -/
def aggValue (op : PyVal → PyVal → Except PyErr PyVal) (d other : PyDict)
    (default : PyVal) (k : String) : Except PyErr PyVal :=
  match op (dictGet d k default) (dictGet other k default) with
  | .ok v => .ok v
  | .error (.typeError _) =>
      .ok (.list [dictGet d k default, dictGet other k default])
  | .error e => .error e

/-- The loop of `aggregate` over the iteration order of the key set. -/
def aggregateAux (op : PyVal → PyVal → Except PyErr PyVal) (d other : PyDict)
    (default : PyVal) : List String → Except PyErr PyDict
  | [] => .ok []
  | k :: ks => do
      let v ← aggValue op d other default k
      let rest ← aggregateAux op d other default ks
      .ok ((k, v) :: rest)

/-- `DictExt.aggregate`.  CPython iterates `set(self) | set(other_dict)` in
hash-table order; only the key *set* is specified behaviour and the claims
depend only on it, so the embedding fixes first-encounter order. -/
def aggregate (d other : PyDict) (default : PyVal)
    (op : PyVal → PyVal → Except PyErr PyVal) : Except PyErr PyDict :=
  aggregateAux op d other default (firstSeen (d.map Prod.fst ++ other.map Prod.fst))

/-- The successful result of `aggregate` as a pure association list. -/
def aggValuePure (op : PyVal → PyVal → Except PyErr PyVal) (d other : PyDict)
    (default : PyVal) (k : String) : PyVal :=
  match op (dictGet d k default) (dictGet other k default) with
  | .ok v => v
  | .error _ => .list [dictGet d k default, dictGet other k default]

/-- The whole merged dict, keyed in the embedding's key-set order. -/
def aggregateResult (op : PyVal → PyVal → Except PyErr PyVal) (d other : PyDict)
    (default : PyVal) : PyDict :=
  (firstSeen (d.map Prod.fst ++ other.map Prod.fst)).map
    fun k => (k, aggValuePure op d other default k)

end DictExt

theorem aggValue_eq_ok {op : PyVal → PyVal → Except PyErr PyVal}
    (hop : ∀ x y e, op x y = .error e → e.isTypeError = true)
    (d other : PyDict) (default : PyVal) (k : String) :
    DictExt.aggValue op d other default k =
      .ok (DictExt.aggValuePure op d other default k) := by
  rw [DictExt.aggValue, DictExt.aggValuePure]
  cases h : op (dictGet d k default) (dictGet other k default) with
  | ok v => rfl
  | error e =>
      have := hop _ _ _ h
      cases e <;> simp [PyErr.isTypeError] at this ⊢

theorem aggregateAux_eq_ok {op : PyVal → PyVal → Except PyErr PyVal}
    (hop : ∀ x y e, op x y = .error e → e.isTypeError = true)
    (d other : PyDict) (default : PyVal) :
    ∀ ks : List String,
      DictExt.aggregateAux op d other default ks =
        .ok (ks.map fun k => (k, DictExt.aggValuePure op d other default k))
  | [] => rfl
  | k :: ks => by
      rw [DictExt.aggregateAux, aggValue_eq_ok hop,
        aggregateAux_eq_ok hop d other default ks]
      rfl

theorem lookup_map_keyfun [BEq κ] [LawfulBEq κ] (f : κ → β) :
    ∀ (ks : List κ) (k : κ),
      ((ks.map fun k2 => (k2, f k2)).lookup k) = if k ∈ ks then some (f k) else none
  | [], k => by simp [List.lookup]
  | k2 :: ks, k => by
      rw [List.map_cons, List.lookup]
      cases hc : k == k2
      · have hne : k ≠ k2 := by simpa using hc
        rw [lookup_map_keyfun f ks k]
        simp [hne]
      · have he : k = k2 := by simpa using hc
        simp [he]

end Absfuyu

/-! ### `ListExt.freq` -/

namespace Absfuyu

/-- `collections.Counter(data)`, accumulator form: count elements into a
dict in first-encounter order; a `list` element is unhashable and raises
`TypeError` when the counter stores it. -/
def pyCounterAux : List (PyVal × Nat) → List PyVal → Except PyErr (List (PyVal × Nat))
  | acc, [] => .ok acc
  | acc, x :: xs =>
      if x.isList then .error (.typeError "unhashable type: list")
      else pyCounterAux (dictUpd (fun o => o.getD 0 + 1) x acc) xs

/-- `collections.Counter(data)`. -/
def pyCounter (l : List PyVal) : Except PyErr (List (PyVal × Nat)) :=
  pyCounterAux [] l

/-- Python `<` forced total for use as a sort predicate on values already
known mutually comparable (the error branch is unreachable there). -/
def pyLtTotal (a b : PyVal) : Bool :=
  match pyLt a b with
  | .ok v => v
  | .error _ => false

/-- All values share one runtime kind. -/
def allSameKind : List PyVal → Bool
  | [] => true
  | x :: xs => xs.all fun y => decide (y.ptype = x.ptype)

/-- `sorted(temp.items())` on counter items.  Tuples compare by their first
component (counter keys are distinct, so the counts never get compared);
the sort raises `TypeError` exactly when it must compare keys of distinct
kinds, i.e. when the hashable (non-list) keys `freq` produces are not all
of one kind. -/
def pySortedPairs (items : List (PyVal × Nat)) : Except PyErr (List (PyVal × Nat)) :=
  if allSameKind (items.map Prod.fst) then
    .ok (items.insertionSort fun p q => pyLtTotal q.1 p.1 = false)
  else .error (.typeError "unorderable types")

/-- `str((k, n))` for a counter item: a tuple prints its components'
reprs. -/
def pyStrPair (kv : PyVal × Nat) : String :=
  "(" ++ pyRepr kv.1 ++ ", " ++ toString kv.2 ++ ")"

/-- `dict(sorted(temp.items()))` with the `except TypeError` fallback
`dict(ListExt(temp.items()).sorts())` (all items are tuples, so the
fallback's type-weight table has the single tuple type). -/
def freqDictOf (temp : List (PyVal × Nat)) : List (PyVal × Nat) :=
  match pySortedPairs temp with
  | .ok items => dictOfPairs items
  | .error _ => dictOfPairs (sortsBy (fun _ => ()) pyStrPair false temp)

/-- `min(list_of_ints)` (used on the string lengths inside `freq`). -/
def pyMinNat : List Nat → Except PyErr Nat
  | [] => .error (.valueError "min() arg is an empty sequence")
  | x :: xs => .ok (xs.foldl Nat.min x)

/-- Python `s[:c]` on strings. -/
def strSliceTo (s : String) (c : Int) : String :=
  String.mk (pySlice s.data 0 c)

/-- `itertools.accumulate(xs, operator.add)`. -/
def accumulateAddAux (acc : Nat) : List Nat → List Nat
  | [] => []
  | x :: xs => (acc + x) :: accumulateAddAux (acc + x) xs

/-- Running sums of a list of counts. -/
def accumulateAdd (l : List Nat) : List Nat := accumulateAddAux 0 l

/-- What `ListExt.freq` returns: a value→count dict, or, with
`appear_increment=True`, the running cumulative counts. -/
inductive FreqResult where
  | dict : List (PyVal × Nat) → FreqResult
  | incr : List Nat → FreqResult
deriving DecidableEq

namespace ListExt

/-- `ListExt.freq`. -/
def freq (l : List PyVal) (sort : Bool) (num_of_first_char : Option Int)
    (appear_increment : Bool) : Except PyErr FreqResult :=
  let data := if sort then ListExt.sorts false l else l
  let tempE : Except PyErr (List (PyVal × Nat)) :=
    match num_of_first_char with
    | none => pyCounter data
    | some c =>
        match pyMinNat (data.map fun x => (pyStr x).length) with
        | .error e => .error e
        | .ok m =>
            if 1 ≤ c ∧ c < (m : Int) then
              pyCounter (data.map fun x => PyVal.str (strSliceTo (pyStr x) c))
            else pyCounter data
  match tempE with
  | .error e => .error e
  | .ok temp =>
      let times_appear := freqDictOf temp
      if appear_increment then
        .ok (.incr (accumulateAdd (times_appear.map Prod.snd)))
      else .ok (.dict times_appear)

end ListExt

/-- How a counter lookup combines a pre-existing count with the number of
further occurrences. -/
def combineCount (o : Option Nat) (c : Nat) : Option Nat :=
  match o with
  | some n => some (n + c)
  | none => if c = 0 then none else some c

theorem pyCounterAux_spec :
    ∀ (l : List PyVal) (acc : List (PyVal × Nat)),
      (∀ x ∈ l, x.isList = false) → (acc.map Prod.fst).Nodup →
      ∃ d, pyCounterAux acc l = .ok d ∧ (d.map Prod.fst).Nodup ∧
        ∀ v : PyVal, d.lookup v = combineCount (acc.lookup v) (l.count v)
  | [], acc, _, hnd => by
      refine ⟨acc, rfl, hnd, fun v => ?_⟩
      rw [List.count_nil]
      cases acc.lookup v <;> simp [combineCount]
  | x :: xs, acc, hl, hnd => by
      have hx : x.isList = false := hl x (by simp)
      have hxs : ∀ y ∈ xs, y.isList = false := fun y hy => hl y (by simp [hy])
      obtain ⟨d, hd, hdnd, hdl⟩ := pyCounterAux_spec xs
        (dictUpd (fun o => o.getD 0 + 1) x acc) hxs
        (dictUpd_nodup _ x acc hnd)
      refine ⟨d, ?_, hdnd, ?_⟩
      · rw [pyCounterAux, if_neg (by simp [hx])]
        exact hd
      · intro v
        rw [hdl v]
        by_cases hv : v = x
        · subst hv
          rw [dictUpd_lookup_self]
          have hcnt : List.count v (v :: xs) = List.count v xs + 1 :=
            List.count_cons_self v xs
          rw [hcnt]
          cases hlk : acc.lookup v with
          | none =>
              simp only [combineCount, Option.getD_none]
              rw [if_neg (by omega)]
              exact congrArg some (by omega)
          | some n =>
              simp only [combineCount, Option.getD_some]
              exact congrArg some (by omega)
        · have hcnt : List.count v (x :: xs) = List.count v xs := by
            rw [List.count_cons]
            simp [Ne.symm hv]
          rw [hcnt, dictUpd_lookup_other (fun o => o.getD 0 + 1) hv acc]

theorem pyCounter_spec (l : List PyVal) (hl : ∀ x ∈ l, x.isList = false) :
    ∃ d, pyCounter l = .ok d ∧ (d.map Prod.fst).Nodup ∧
      ∀ v : PyVal, d.lookup v = if l.count v = 0 then none else some (l.count v) := by
  obtain ⟨d, hd, hnd, hdl⟩ := pyCounterAux_spec l [] hl List.nodup_nil
  refine ⟨d, hd, hnd, fun v => ?_⟩
  rw [hdl v]
  rfl

/-- The dict built from the (sorted one way or another) counter items has
the same lookups as the counter itself. -/
theorem freqDictOf_lookup (temp : List (PyVal × Nat))
    (hnd : (temp.map Prod.fst).Nodup) :
    ∀ v, (freqDictOf temp).lookup v = temp.lookup v := by
  intro v
  cases h : pySortedPairs temp with
  | ok items =>
      simp only [freqDictOf, h]
      have hperm : items.Perm temp := by
        rw [pySortedPairs] at h
        by_cases hc : allSameKind (temp.map Prod.fst) = true
        · rw [if_pos hc] at h
          cases h
          exact List.perm_insertionSort _ temp
        · rw [if_neg hc] at h
          cases h
      have hndi : (items.map Prod.fst).Nodup :=
        ((hperm.map Prod.fst).nodup_iff).mpr hnd
      rw [dictOfPairs_of_nodup hndi]
      exact lookup_of_perm hndi hperm v
  | error e =>
      simp only [freqDictOf, h]
      have hperm : (sortsBy (fun _ => ()) pyStrPair false temp).Perm temp :=
        sortsBy_false_perm _ _ temp
      have hndi : ((sortsBy (fun _ => ()) pyStrPair false temp).map Prod.fst).Nodup :=
        ((hperm.map Prod.fst).nodup_iff).mpr hnd
      rw [dictOfPairs_of_nodup hndi]
      exact lookup_of_perm hndi hperm v

end Absfuyu

/-! ### `ListExt.group_by_pair_value` and `ListExt.wrap_to_column` -/

namespace Absfuyu

/-- CPython's iteration order of `list(set(chain(*v)))` for the small
non-negative ints the claim exercises (every value is below the initial
hash-table size, so slot(i) = i and iteration is ascending): distinct
elements in ascending order. -/
def pySetAscInt (l : List Int) : List Int :=
  (firstSeen l).insertionSort fun a b : Int => a ≤ b

/-- One pass of the grouping loop: build `dict{key: every edge containing
key}` in insertion order, then collapse each value through
`list(set(chain(*v)))` and take `list(temp.values())`. -/
def gbpvPass (iter : List (List Int)) : List (List Int) :=
  (iter.foldl
    (fun acc item =>
      item.foldl (fun acc2 x => dictUpd (fun o => o.getD [] ++ [item]) x acc2) acc)
    ([] : List (Int × List (List Int)))).map
    fun kv => pySetAscInt kv.2.flatten

/-- `[x for x, _ in groupby(iter)]`: the first element of each run of equal
consecutive elements. -/
def dedupConsec [DecidableEq β] : List β → List β
  | [] => []
  | [x] => [x]
  | x :: y :: rest =>
      if x = y then dedupConsec (y :: rest) else x :: dedupConsec (y :: rest)

namespace ListExt

/-- `ListExt.group_by_pair_value` over `Int` vertices (the claim's input):
run the merging pass `max(max_loop, 3)` times, then collapse consecutive
duplicate groups. -/
def group_by_pair_value (l : List (List Int)) (max_loop : Int) : List (List Int) :=
  dedupConsec (gbpvPass^[(max max_loop 3).toNat] l)

end ListExt

/-- `max(list_of_ints)` (used by `max_item_len` on the item lengths). -/
def pyMaxNat : List Nat → Except PyErr Nat
  | [] => .error (.valueError "max() arg is an empty sequence")
  | x :: xs => .ok (xs.foldl Nat.max x)

namespace ListExt

/-- `ListExt.len_items` on a list of strings (`len(item)` succeeds on a
string, so the `except TypeError` fallback in `_len` is never taken). -/
def len_items (l : List String) : List Nat := l.map String.length

/-- `ListExt.max_item_len` (`recursive=False`) on a list of strings:
`max(self.len_items())`. -/
def max_item_len (l : List String) : Except PyErr Nat :=
  pyMaxNat (len_items l)

end ListExt

/-- `str.ljust(w, " ")`: left-justify, appending spaces up to width `w`
(no-op when the string is already at least that wide). -/
def ljust (s : String) (w : Nat) : String :=
  s ++ String.mk (List.replicate (w - s.length) ' ')

namespace ListExt

/-- `ListExt.wrap_to_column`. -/
def wrap_to_column (l : List String) (width margin : Int) :
    Except PyErr (List String) :=
  match ListExt.max_item_len l with
  | .error e => .error e
  | .ok maxlen =>
      let max_item_length : Int := (maxlen : Int) + 1
      let available_width : Int := max width 4 - max margin 2
      let column_count : Int :=
        if max_item_length > 0 then max 1 (available_width.fdiv max_item_length)
        else 1
      .ok ((ListExt.split_chunk l column_count).map
        fun item => String.join (item.map fun x => ljust x max_item_length.toNat))

end ListExt

/-- The maximum item length as the claim states it (0 on the empty list). -/
def maxLenNat (l : List String) : Nat :=
  (l.map String.length).foldr Nat.max 0

theorem foldl_max_eq_foldr :
    ∀ (xs : List Nat) (x : Nat), xs.foldl Nat.max x = Nat.max x (xs.foldr Nat.max 0)
  | [], x => by simp
  | y :: ys, x => by
      rw [List.foldl_cons, foldl_max_eq_foldr ys (Nat.max x y), List.foldr_cons]
      exact Nat.max_assoc x y (List.foldr Nat.max 0 ys)

theorem max_item_len_of_ne_nil {l : List String} (h : l ≠ []) :
    ListExt.max_item_len l = .ok (maxLenNat l) := by
  cases l with
  | nil => exact absurd rfl h
  | cons s ss =>
      rw [ListExt.max_item_len, ListExt.len_items, List.map_cons, pyMaxNat, maxLenNat,
        List.map_cons, List.foldr_cons, foldl_max_eq_foldr]

/-- `True` on a successful `Except`. -/
def exceptOk : Except ε β → Bool
  | .ok _ => true
  | .error _ => false

/-- The pure value of `Counter(data)` when every element is hashable. -/
def counterPure (l : List PyVal) : List (PyVal × Nat) :=
  l.foldl (fun acc x => dictUpd (fun o => o.getD 0 + 1) x acc) []

theorem pyCounterAux_eq_foldl :
    ∀ (l : List PyVal) (acc : List (PyVal × Nat)), (∀ x ∈ l, x.isList = false) →
      pyCounterAux acc l =
        .ok (l.foldl (fun acc x => dictUpd (fun o => o.getD 0 + 1) x acc) acc)
  | [], acc, _ => rfl
  | x :: xs, acc, h => by
      rw [pyCounterAux, if_neg (by simp [h x (by simp)]), List.foldl_cons]
      exact pyCounterAux_eq_foldl xs _ fun y hy => h y (by simp [hy])

theorem pyCounter_eq_counterPure {l : List PyVal} (h : ∀ x ∈ l, x.isList = false) :
    pyCounter l = .ok (counterPure l) :=
  pyCounterAux_eq_foldl l [] h

theorem counterPure_spec (l : List PyVal) (h : ∀ x ∈ l, x.isList = false) :
    ((counterPure l).map Prod.fst).Nodup ∧
      ∀ v : PyVal, (counterPure l).lookup v =
        (if l.count v = 0 then none else some (l.count v)) := by
  obtain ⟨d, hd, hnd, hdl⟩ := pyCounter_spec l h
  have he : d = counterPure l := by
    have := hd.symm.trans (pyCounter_eq_counterPure h)
    exact Except.ok.inj this
  subst he
  exact ⟨hnd, hdl⟩

end Absfuyu

/-! ### Behaviour of `max`/`min` folds by value kind -/

namespace Absfuyu

theorem isList_false_of_ptype {a : PyVal} {t : PType} (h : a.ptype = t)
    (ht : t ≠ PType.tList) : a.isList = false := by
  cases a <;> simp_all [PyVal.ptype, PyVal.isList]

theorem pyLt_ok_of_same_kind {a b : PyVal} (h : a.ptype = b.ptype)
    (hl : a.isList = false) : ∃ r, pyLt a b = .ok r := by
  cases a <;> cases b <;>
    first
      | exact ⟨_, rfl⟩
      | simp_all [PyVal.ptype, PyVal.isList]

theorem pyMaxFold_cons_ok {cur x : PyVal} {b : Bool} (h : pyLt cur x = .ok b)
    (xs : List PyVal) :
    pyMaxFold cur (x :: xs) = if b then pyMaxFold x xs else pyMaxFold cur xs := by
  rw [pyMaxFold, h]
  rfl

theorem pyMinFold_cons_ok {cur x : PyVal} {b : Bool} (h : pyLt x cur = .ok b)
    (xs : List PyVal) :
    pyMinFold cur (x :: xs) = if b then pyMinFold x xs else pyMinFold cur xs := by
  rw [pyMinFold, h]
  rfl

theorem pyMaxFold_cons_error {cur x : PyVal} {e : PyErr} (h : pyLt cur x = .error e)
    (xs : List PyVal) : pyMaxFold cur (x :: xs) = .error e := by
  rw [pyMaxFold, h]
  rfl

theorem pyMinFold_cons_error {cur x : PyVal} {e : PyErr} (h : pyLt x cur = .error e)
    (xs : List PyVal) : pyMinFold cur (x :: xs) = .error e := by
  rw [pyMinFold, h]
  rfl

theorem pyMaxFold_ok_of_kind {t : PType} (ht : t ≠ PType.tList) :
    ∀ (xs : List PyVal) (cur : PyVal), cur.ptype = t → (∀ x ∈ xs, x.ptype = t) →
      ∃ r, pyMaxFold cur xs = .ok r ∧ r.ptype = t
  | [], cur, hc, _ => ⟨cur, rfl, hc⟩
  | x :: xs, cur, hc, hxs => by
      have hx : x.ptype = t := hxs x (by simp)
      obtain ⟨b, hb⟩ := pyLt_ok_of_same_kind (hc.trans hx.symm)
        (isList_false_of_ptype hc ht)
      rw [pyMaxFold_cons_ok hb]
      cases b
      · rw [if_neg (by simp)]
        exact pyMaxFold_ok_of_kind ht xs cur hc fun y hy => hxs y (by simp [hy])
      · rw [if_pos rfl]
        exact pyMaxFold_ok_of_kind ht xs x hx fun y hy => hxs y (by simp [hy])

theorem pyMinFold_ok_of_kind {t : PType} (ht : t ≠ PType.tList) :
    ∀ (xs : List PyVal) (cur : PyVal), cur.ptype = t → (∀ x ∈ xs, x.ptype = t) →
      ∃ r, pyMinFold cur xs = .ok r ∧ r.ptype = t
  | [], cur, hc, _ => ⟨cur, rfl, hc⟩
  | x :: xs, cur, hc, hxs => by
      have hx : x.ptype = t := hxs x (by simp)
      obtain ⟨b, hb⟩ := pyLt_ok_of_same_kind (hx.trans hc.symm)
        (isList_false_of_ptype hx ht)
      rw [pyMinFold_cons_ok hb]
      cases b
      · rw [if_neg (by simp)]
        exact pyMinFold_ok_of_kind ht xs cur hc fun y hy => hxs y (by simp [hy])
      · rw [if_pos rfl]
        exact pyMinFold_ok_of_kind ht xs x hx fun y hy => hxs y (by simp [hy])

theorem pyMaxFold_error_of_mixed :
    ∀ (xs : List PyVal) (cur : PyVal), (∃ x ∈ xs, x.ptype ≠ cur.ptype) →
      ∃ e, pyMaxFold cur xs = .error e ∧ e.isTypeError = true
  | [], _, h => by simp at h
  | x :: xs, cur, h => by
      by_cases hx : x.ptype = cur.ptype
      · cases hlt : pyLt cur x with
        | error e =>
            exact ⟨e, pyMaxFold_cons_error hlt xs, pyLt_error_isTypeError _ _ _ hlt⟩
        | ok b =>
            obtain ⟨y, hy, hyne⟩ := h
            have hy2 : y ∈ xs := by
              rcases List.mem_cons.mp hy with rfl | h2
              · exact absurd hx hyne
              · exact h2
            rw [pyMaxFold_cons_ok hlt]
            cases b
            · rw [if_neg (by simp)]
              exact pyMaxFold_error_of_mixed xs cur ⟨y, hy2, hyne⟩
            · rw [if_pos rfl]
              exact pyMaxFold_error_of_mixed xs x ⟨y, hy2, by rw [hx]; exact hyne⟩
      · refine ⟨.typeError "unorderable types", ?_, rfl⟩
        exact pyMaxFold_cons_error (pyLt_cross_kind fun he => hx he.symm) xs

end Absfuyu

/-! ## The claims -/

namespace Absfuyu

/-- C2: `ListExt.sorts()` (default `reverse=False`) is idempotent:
`x.sorts().sorts() == x.sorts()` for every list of Python values, with the
sort key (first-encounter type rank, string representation). -/
theorem claim_C2_sorts_idempotent (x : List PyVal) :
    ListExt.sorts false (ListExt.sorts false x) = ListExt.sorts false x :=
  sortsBy_false_idempotent PyVal.ptype pyStr x

/-- C4: for every (acyclic, as all Lean lists are) list, the result of
`flatten(recursive=True)` contains no element that is a non-string
iterable, and applying `flatten(recursive=True)` to that result returns it
unchanged. -/
theorem claim_C4_flatten_recursive_fixpoint (l : List PyVal) :
    (∀ v ∈ ListExt.flatten l true, v.isList = false) ∧
      ListExt.flatten (ListExt.flatten l true) true = ListExt.flatten l true := by
  have h1 : hasIterable (ListExt.flatten l true) = false :=
    flattenRecAux_no_iterable (flattenOnce l)
  refine ⟨?_, ?_⟩
  · intro v hv
    by_contra hvl
    rw [Bool.not_eq_false] at hvl
    have h2 : hasIterable (ListExt.flatten l true) = true := by
      rw [hasIterable, List.any_eq_true]
      exact ⟨v, hv, hvl⟩
    rw [h2] at h1
    exact Bool.noConfusion h1
  · show flattenRecAux (flattenOnce (ListExt.flatten l true)) = ListExt.flatten l true
    rw [flattenOnce_of_no_iterable h1, flattenRecAux_of_no_iterable h1]

/-- C8: for every list and every integer chunk size, concatenating the
chunks of `split_chunk(k)` in order reconstructs the list, and every chunk
except possibly the last has exactly `max(k, 1)` elements — the
floor-clamped chunk size, which extends the property to all integer
arguments. -/
theorem claim_C8_split_chunk_reconstruction (l : List α) (k : Int) :
    (ListExt.split_chunk l k).flatten = l ∧
      ∀ c ∈ (ListExt.split_chunk l k).dropLast, c.length = (max k 1).toNat :=
  ⟨split_chunk_flatten l k, split_chunk_sizes l k⟩

/-- C9: `slice_points` mutates its caller-supplied `points` list in place,
appending `len(self)`; a second call reusing the mutated list returns a
different result — the first result plus one extra trailing empty slice —
and appends `len(self)` again. -/
theorem claim_C9_slice_points_mutates (l : List α) (points : List Int) :
    (ListExt.slice_points l points).2 = points ++ [(l.length : Int)] ∧
      ListExt.slice_points l (ListExt.slice_points l points).2 =
        ((ListExt.slice_points l points).1 ++ [[]],
          (points ++ [(l.length : Int)]) ++ [(l.length : Int)]) := by
  refine ⟨rfl, ?_⟩
  refine Prod.ext ?_ ?_
  · rw [slice_points_snd, slice_points_fst, slice_points_fst,
      intSlices_append_last l (points ++ [(l.length : Int)]) 0 (l.length : Int),
      List.getLastD_concat, pySlice_self]
  · rw [slice_points_snd, slice_points_snd]

/-- C10: on the empty list, `freq` with any integer `num_of_first_char`
raises the unhandled `ValueError` coming from `min()` of an empty sequence,
while `freq()` with `num_of_first_char=None` returns the empty dict. -/
theorem claim_C10_freq_empty (c : Int) :
    ListExt.freq [] false (some c) false =
        .error (.valueError "min() arg is an empty sequence") ∧
      ListExt.freq [] false none false = .ok (.dict []) :=
  ⟨rfl, rfl⟩

/-- C5: on the documented example input the pair-value grouping returns the
connected components `[[1, 2, 3, 4], [5, 6]]`; the pass count is
floor-clamped to a minimum of 3, so every `max_loop ≤ 3` runs identically
to the default. -/
theorem claim_C5_group_by_pair_value (m : Int) (hm : m ≤ 3) :
    ListExt.group_by_pair_value [[1, 2], [2, 3], [4, 3], [5, 6]] m =
      [[1, 2, 3, 4], [5, 6]] := by
  have h3 : (max m 3).toNat = 3 := by omega
  rw [ListExt.group_by_pair_value, h3]
  decide

/-- C5 witness: the default `max_loop=3` run on the example input. -/
theorem claim_C5_witness :
    ListExt.group_by_pair_value [[1, 2], [2, 3], [4, 3], [5, 6]] 3 =
      [[1, 2, 3, 4], [5, 6]] :=
  claim_C5_group_by_pair_value 3 (by decide)

end Absfuyu

namespace Absfuyu

/-- C3: for all dicts `a`, `b`, any default `d` and any binary operator
whose only failure kind is `TypeError`, `a.aggregate(b, d, f)` succeeds;
its key set is exactly `set(a) | set(b)`, and each key maps to
`f(a.get(k, d), b.get(k, d))` — or to the two-element list
`[a.get(k, d), b.get(k, d)]` when that application raises `TypeError`.  No
per-key incompatibility fails the whole operation. -/
theorem claim_C3_aggregate_union (d other : PyDict) (default : PyVal)
    (op : PyVal → PyVal → Except PyErr PyVal)
    (hop : ∀ x y e, op x y = .error e → e.isTypeError = true) :
    DictExt.aggregate d other default op =
        .ok (DictExt.aggregateResult op d other default) ∧
      ∀ k, (DictExt.aggregateResult op d other default).lookup k =
        if k ∈ d.map Prod.fst ∨ k ∈ other.map Prod.fst then
          some (match op (dictGet d k default) (dictGet other k default) with
            | .ok v => v
            | .error _ => .list [dictGet d k default, dictGet other k default])
        else none := by
  constructor
  · rw [DictExt.aggregate, aggregateAux_eq_ok hop]
    rfl
  · intro k
    rw [DictExt.aggregateResult, lookup_map_keyfun]
    by_cases hk : k ∈ d.map Prod.fst ∨ k ∈ other.map Prod.fst
    · rw [if_pos ((mem_firstSeen _ k).mpr (List.mem_append.mpr hk)), if_pos hk]
      rfl
    · have hmem : k ∉ firstSeen (d.map Prod.fst ++ other.map Prod.fst) := by
        intro hmem
        exact hk (List.mem_append.mp ((mem_firstSeen _ k).mp hmem))
      rw [if_neg hmem, if_neg hk]

/-- C3 witness: the documented example — `{"test": 5, "test2": 9}`
aggregated with `{"test1": 10, "test2": "1"}` under `operator.add` — where
key `"test2"` degrades to the list `[9, '1']`. -/
theorem claim_C3_witness :
    DictExt.aggregate [("test", .int 5), ("test2", .int 9)]
        [("test1", .int 10), ("test2", .str "1")] (.int 0) pyAdd =
      .ok (DictExt.aggregateResult pyAdd [("test", .int 5), ("test2", .int 9)]
        [("test1", .int 10), ("test2", .str "1")] (.int 0)) ∧
    (DictExt.aggregateResult pyAdd [("test", .int 5), ("test2", .int 9)]
        [("test1", .int 10), ("test2", .str "1")] (.int 0)).lookup "test2" =
      some (.list [.int 9, .str "1"]) := by
  have h := claim_C3_aggregate_union [("test", .int 5), ("test2", .int 9)]
    [("test1", .int 10), ("test2", .str "1")] (.int 0) pyAdd pyAdd_error_isTypeError
  exact ⟨h.1, (h.2 "test2").trans (by decide)⟩

/-- C1 counterexample: a dict whose values are all strings — non-numeric —
still analyzes successfully, refuting "analyze() succeeds only when all
values are numeric" (and "any non-numeric value causes a reported
value-error failure"). -/
theorem claim_C1_counterexample :
    DictExt.analyze [("a", .str "x")] =
      .ok ⟨.str "x", .str "x", [("a", .str "x")], [("a", .str "x")]⟩ := rfl

/-- C1 (amended): `analyze()` fails — with the reported `ValueError`, never
the raw `TypeError` — when the values mix integers and strings (mutually
incomparable kinds), and succeeds whenever the values are mutually
comparable, in particular all-integer or all-string. -/
theorem claim_C1_analyze_value_kinds (d : PyDict) (hne : d ≠ []) :
    ((∀ kv ∈ d, (kv.2).ptype = PType.tInt) ∨ (∀ kv ∈ d, (kv.2).ptype = PType.tStr) →
        exceptOk (DictExt.analyze d) = true) ∧
      ((∃ kv ∈ d, (kv.2).ptype = PType.tInt) →
        (∃ kv ∈ d, (kv.2).ptype = PType.tStr) →
        DictExt.analyze d = .error (.valueError "Value must be int or float")) := by
  obtain ⟨⟨k0, v0⟩, rest, rfl⟩ : ∃ kv rest, d = kv :: rest := by
    cases d with
    | nil => exact absurd rfl hne
    | cons kv rest => exact ⟨kv, rest, rfl⟩
  have hsucc : ∀ t : PType, t ≠ PType.tList →
      (∀ kv ∈ (k0, v0) :: rest, (kv.2).ptype = t) →
      exceptOk (DictExt.analyze ((k0, v0) :: rest)) = true := by
    intro t ht hall
    have hv0 : v0.ptype = t := hall (k0, v0) (by simp)
    have hrest : ∀ x ∈ rest.map Prod.snd, x.ptype = t := by
      intro x hx
      obtain ⟨kv, hkv, rfl⟩ := List.mem_map.mp hx
      exact hall kv (by simp [hkv])
    obtain ⟨r1, hr1, _⟩ := pyMaxFold_ok_of_kind ht (rest.map Prod.snd) v0 hv0 hrest
    obtain ⟨r2, hr2, _⟩ := pyMinFold_ok_of_kind ht (rest.map Prod.snd) v0 hv0 hrest
    simp only [DictExt.analyze, List.map_cons, pyMax, pyMin, hr1, hr2, exceptOk]
  constructor
  · rintro (hall | hall)
    · exact hsucc .tInt (by decide) hall
    · exact hsucc .tStr (by decide) hall
  · rintro ⟨kvi, hkvi, hkvit⟩ ⟨kvs, hkvs, hkvst⟩
    have hmix : ∃ x ∈ rest.map Prod.snd, x.ptype ≠ v0.ptype := by
      by_cases h0 : v0.ptype = PType.tInt
      · rcases List.mem_cons.mp hkvs with heq | hmem
        · rw [heq] at hkvst
          rw [hkvst] at h0
          exact absurd h0 (by decide)
        · refine ⟨kvs.2, List.mem_map_of_mem Prod.snd hmem, ?_⟩
          rw [hkvst, h0]
          decide
      · rcases List.mem_cons.mp hkvi with heq | hmem
        · rw [heq] at hkvit
          exact absurd hkvit h0
        · refine ⟨kvi.2, List.mem_map_of_mem Prod.snd hmem, ?_⟩
          rw [hkvit]
          exact fun he => h0 he.symm
    obtain ⟨e, he, het⟩ := pyMaxFold_error_of_mixed (rest.map Prod.snd) v0 hmix
    cases e with
    | typeError msg => simp only [DictExt.analyze, List.map_cons, pyMax, he]
    | valueError msg => exact absurd het (by simp [PyErr.isTypeError])
    | indexError msg => exact absurd het (by simp [PyErr.isTypeError])

/-- C1 witness: the all-int dict `{"a": 1, "b": 2}` analyzes successfully,
while the mixed dict `{"a": 1, "b": "x"}` fails with the reported
`ValueError`. -/
theorem claim_C1_witness :
    exceptOk (DictExt.analyze [("a", .int 1), ("b", .int 2)]) = true ∧
      DictExt.analyze [("a", .int 1), ("b", .str "x")] =
        .error (.valueError "Value must be int or float") := by
  have h1 := claim_C1_analyze_value_kinds [("a", .int 1), ("b", .int 2)] (by decide)
  have h2 := claim_C1_analyze_value_kinds [("a", .int 1), ("b", .str "x")] (by decide)
  exact ⟨h1.1 (.inl (by decide)),
    h2.2 ⟨("a", .int 1), by decide, rfl⟩ ⟨("b", .str "x"), by decide, rfl⟩⟩

end Absfuyu

namespace Absfuyu

/-- C6: on every non-empty list of strings, `wrap_to_column(width, margin)`
computes the column count as
`max(1, (clamp(width, ≥4) - clamp(margin, ≥2)) // (max_item_len + 1))`
(floor division), chunks the elements into that many per row, left-justifies
(space-fills on the right) each element to the uniform width
`max_item_len + 1`, and concatenates each row into one string; every row
except possibly the last holds exactly `column_count` elements. -/
theorem claim_C6_wrap_to_column (l : List String) (hne : l ≠ []) (width margin : Int) :
    ListExt.wrap_to_column l width margin =
        .ok ((ListExt.split_chunk l
            (max 1 ((max width 4 - max margin 2).fdiv ((maxLenNat l : Int) + 1)))).map
          fun row => String.join (row.map fun x => ljust x (maxLenNat l + 1))) ∧
      ∀ row ∈ (ListExt.split_chunk l
          (max 1 ((max width 4 - max margin 2).fdiv ((maxLenNat l : Int) + 1)))).dropLast,
        row.length = (max 1 ((max width 4 - max margin 2).fdiv
          ((maxLenNat l : Int) + 1))).toNat := by
  have hml := max_item_len_of_ne_nil hne
  constructor
  · simp only [ListExt.wrap_to_column, hml]
    rw [if_pos (by omega : ((maxLenNat l : Int) + 1) > 0)]
    have htn : ((maxLenNat l : Int) + 1).toNat = maxLenNat l + 1 := by omega
    rw [htn]
  · intro row hrow
    have h := split_chunk_sizes l
      (max 1 ((max width 4 - max margin 2).fdiv ((maxLenNat l : Int) + 1))) row hrow
    have hcc : max (max 1 ((max width 4 - max margin 2).fdiv
        ((maxLenNat l : Int) + 1))) 1 =
        max 1 ((max width 4 - max margin 2).fdiv ((maxLenNat l : Int) + 1)) := by
      omega
    rwa [hcc] at h

/-- C6 witness: the documented example
`ListExt(["apple", "banana", "cherry", "date"]).wrap_to_column(30)`. -/
theorem claim_C6_witness :
    ListExt.wrap_to_column ["apple", "banana", "cherry", "date"] 30 4 =
      .ok ["apple  banana cherry ", "date   "] := by
  have h := (claim_C6_wrap_to_column ["apple", "banana", "cherry", "date"]
    (by decide) 30 4).1
  rw [h]
  rfl

/-- C7 counterexample: on `[[1]]` with `num_of_first_char=0` the parameter
is outside `[1, m)`, but instead of silently counting the untruncated
elements, `freq` raises `TypeError` — the single element is an unhashable
list and `Counter` cannot store it. -/
theorem claim_C7_counterexample :
    ListExt.freq [.list [.int 1]] false (some 0) false =
      .error (.typeError "unhashable type: list") := rfl

/-- C7 (amended): for every non-empty list, `freq(num_of_first_char=c)`
counts the truncations of the elements' string forms to their first `c`
characters exactly when `1 ≤ c < m` with `m` the minimum string-form
length; for any other `c` the parameter is ignored and the untruncated
elements are counted — provided they are hashable (no list elements),
counting otherwise raising `TypeError`. -/
theorem claim_C7_freq_truncation (l : List PyVal) (c : Int) (m : Nat)
    (hm : pyMinNat (l.map fun x => (pyStr x).length) = .ok m) :
    ((1 ≤ c ∧ c < (m : Int)) →
      ListExt.freq l false (some c) false =
          .ok (.dict (freqDictOf
            (counterPure (l.map fun x => PyVal.str (strSliceTo (pyStr x) c))))) ∧
        ∀ v, (freqDictOf
            (counterPure (l.map fun x => PyVal.str (strSliceTo (pyStr x) c)))).lookup v =
          (if (l.map fun x => PyVal.str (strSliceTo (pyStr x) c)).count v = 0 then none
           else some ((l.map fun x => PyVal.str (strSliceTo (pyStr x) c)).count v))) ∧
    (¬(1 ≤ c ∧ c < (m : Int)) → (∀ x ∈ l, x.isList = false) →
      ListExt.freq l false (some c) false = .ok (.dict (freqDictOf (counterPure l))) ∧
        ∀ v, (freqDictOf (counterPure l)).lookup v =
          (if l.count v = 0 then none else some (l.count v))) := by
  constructor
  · intro hc
    have hdata : ∀ x ∈ l.map fun x => PyVal.str (strSliceTo (pyStr x) c),
        x.isList = false := by
      intro x hx
      obtain ⟨y, _, rfl⟩ := List.mem_map.mp hx
      rfl
    obtain ⟨hnd, hlook⟩ := counterPure_spec _ hdata
    refine ⟨?_, ?_⟩
    · simp only [ListExt.freq, Bool.false_eq_true, if_false, hm, if_pos hc,
        pyCounter_eq_counterPure hdata]
    · intro v
      rw [freqDictOf_lookup _ hnd v, hlook v]
  · intro hcnot hnolist
    obtain ⟨hnd, hlook⟩ := counterPure_spec l hnolist
    refine ⟨?_, ?_⟩
    · simp only [ListExt.freq, Bool.false_eq_true, if_false, hm, if_neg hcnot,
        pyCounter_eq_counterPure hnolist]
    · intro v
      rw [freqDictOf_lookup _ hnd v, hlook v]

/-- C7 witness: `freq` on `[10, 11, 10]` with `num_of_first_char=1` counts
first characters (`m = 2`, so `c = 1` is in range): `{'1': 3}`. -/
theorem claim_C7_witness :
    ListExt.freq [.int 10, .int 11, .int 10] false (some 1) false =
        .ok (.dict (freqDictOf (counterPure
          ([.int 10, .int 11, .int 10].map fun x =>
            PyVal.str (strSliceTo (pyStr x) 1))))) ∧
      (freqDictOf (counterPure ([.int 10, .int 11, .int 10].map fun x =>
          PyVal.str (strSliceTo (pyStr x) 1)))).lookup (.str "1") = some 3 := by
  have h := (claim_C7_freq_truncation [.int 10, .int 11, .int 10] 1 2 rfl).1
    (by constructor <;> decide)
  exact ⟨h.1, (h.2 (.str "1")).trans (by decide)⟩

end Absfuyu
